import Mathlib

/-!
Verification development for the pender repository: a hash-linked event
log consisting of a Blake2 digest wrapper (src/hash.rs), Origin/Chained
events (src/event.rs) and a content-addressed fragment store with a lazy
backward traversal (src/fragment.rs).

Byte strings (`&[u8]`, `[u8; 64]`) are modelled as `List Nat`, one entry
per byte. The blake2b primitive comes from the external blake2_rfc crate
(it is not part of this repository), so the whole development is
parametric in `prim : List Nat → List Nat`, standing for
`fun obj => blake2b(64, b"a key", obj).as_bytes()`. Its documented
contract — the output length equals the requested 64 bytes — appears as
an explicit hypothesis where a theorem needs it. `hash::Hash`, as used in
event.rs, is the `Blake2` type of hash.rs.
-/

set_option autoImplicit false

/-- Models the copy loop of `into_64bytes` in src/hash.rs: the elements of
`slice` are written over the front of `array`, positions of `array` beyond
the length of `slice` keep their previous value, and elements of `slice`
beyond the length of `array` are dropped. -/
def copyInto : List Nat → List Nat → List Nat
  | [], array => array
  | _ :: _, [] => []
  | x :: xs, _ :: ys => x :: copyInto xs ys

/-- Models `into_64bytes` in src/hash.rs. The Rust function panics when the
slice length is not 64; the panic is modelled as `none`. Otherwise it copies
the slice into a fresh zeroed 64-byte array. -/
def into_64bytes (slice : List Nat) : Option (List Nat) :=
  if slice.length ≠ 64 then none
  else some (copyInto slice (List.replicate 64 0))

/-- Models the `Blake2` struct of src/hash.rs: a 64-byte hash value.
Equality of the Rust struct is byte-wise equality of the arrays, which is
equality of the modelled byte lists. -/
structure Blake2 where
  bytes : List Nat
deriving DecidableEq, Repr

/-- Models `Blake2::new` in src/hash.rs, with the external blake2b call
abstracted as `prim`. In Rust the `into_64bytes` panic branch diverges; the
model supplies a zeroed default that is proved unreachable whenever `prim`
meets the blake2b output-length contract. -/
def Blake2.new (prim : List Nat → List Nat) (obj : List Nat) : Blake2 :=
  ⟨(into_64bytes (prim obj)).getD (List.replicate 64 0)⟩

/-- Models the `Event` enum of src/event.rs: `Root { fact }` or
`Node { fact, parent_hash }`. -/
inductive Event where
  | Root (fact : List Nat)
  | Node (fact : List Nat) (parent_hash : Blake2)
deriving DecidableEq, Repr

/-- Models `Event::hash` in src/event.rs: a Root hashes its fact; a Node
hashes its fact with the parent hash bytes appended. -/
def Event.hash (prim : List Nat → List Nat) : Event → Blake2
  | .Root fact => Blake2.new prim fact
  | .Node fact parent_hash => Blake2.new prim (fact ++ parent_hash.bytes)

/-- Models `Event::new` in src/event.rs: `None` makes a Root, `Some(event)`
makes a Node storing the hash of the parent, computed eagerly. -/
def Event.new (prim : List Nat → List Nat) (fact : List Nat)
    (parent : Option Event) : Event :=
  match parent with
  | none => Event.Root fact
  | some event => Event.Node fact (event.hash prim)

/-- Models `Event::parent` in src/event.rs. -/
def Event.parent : Event → Option Blake2
  | .Root _ => none
  | .Node _ parent_hash => some parent_hash

/-- Models `Event::is_root` in src/event.rs. -/
def Event.is_root : Event → Bool
  | .Root _ => true
  | .Node _ _ => false

/-- Association-list model of `HashMap<Blake2, Event>`: removing every
entry with the given key, the helper for overwrite-on-insert. -/
def removeKey : List (Blake2 × Event) → Blake2 → List (Blake2 × Event)
  | [], _ => []
  | (k, v) :: rest, h =>
    if k = h then removeKey rest h else (k, v) :: removeKey rest h

/-- Models `HashMap::insert`: the new binding replaces any existing binding
of the same key, so keys stay unique. -/
def mapInsert (m : List (Blake2 × Event)) (k : Blake2) (v : Event) :
    List (Blake2 × Event) :=
  (k, v) :: removeKey m k

/-- Models `HashMap::get`: the binding of the given key, if any. -/
def mapGet : List (Blake2 × Event) → Blake2 → Option Event
  | [], _ => none
  | (k, v) :: rest, h => if k = h then some v else mapGet rest h

/-- Models the `Fragment` struct of src/fragment.rs: an optional head event
and a digest-keyed event map. -/
structure Fragment where
  head : Option Event
  events : List (Blake2 × Event)
deriving DecidableEq, Repr

/-- Models `Fragment::new`: empty map, no head (the `Default` derive). -/
def Fragment.new : Fragment :=
  { head := none, events := [] }

/-- Models `Fragment::append_event` in src/fragment.rs: point the head at
the event and insert it keyed by its own hash. -/
def Fragment.append_event (prim : List Nat → List Nat) (self : Fragment)
    (event : Event) : Fragment :=
  { head := some event, events := mapInsert self.events (event.hash prim) event }

/-- Models `Fragment::append` in src/fragment.rs: wrap the fact into an
event chained onto the current head and append it. -/
def Fragment.append (prim : List Nat → List Nat) (self : Fragment)
    (fact : List Nat) : Fragment :=
  self.append_event prim (Event.new prim fact self.head)

/-- Models the `Chain` struct of src/fragment.rs: the captured fragment, a
summary label and the cursor digest (`None` once exhausted). -/
structure Chain where
  fragment : Fragment
  summary : String
  next : Option Blake2
deriving DecidableEq, Repr

/-- Models `Chain::new` in src/fragment.rs: capture the fragment and start
the cursor at the hash of its head, exhausted when there is no head. -/
def Chain.new (prim : List Nat → List Nat) (fragment : Fragment)
    (summary : String) : Chain :=
  { fragment := fragment
    summary := summary
    next := fragment.head.map (fun e => e.hash prim) }

/-- Models `Fragment::summarize` in src/fragment.rs. -/
def Fragment.summarize (prim : List Nat → List Nat) (self : Fragment)
    (name : String) : Chain :=
  Chain.new prim self name

/-- Models the `Link` enum of src/fragment.rs. -/
inductive Link where
  | Event (event : Event)
  | Terminus (digest : Option Blake2)
deriving DecidableEq, Repr

/-- Models `Chain::next_event` in src/fragment.rs. The Rust method mutates
`self`; the model returns the yielded link together with the chain state
after the call. Note that the boundary branch (cursor present, key absent
from the map) leaves the cursor unchanged, exactly as the Rust does. -/
def Chain.next_event (self : Chain) : Link × Chain :=
  match self.next with
  | none => (Link.Terminus none, self)
  | some hash =>
    match mapGet self.fragment.events hash with
    | some event => (Link.Event event, { self with next := event.parent })
    | none => (Link.Terminus (some hash), self)

/-- The result of the (n+1)-th call to `next_event` starting from `self`,
threading the mutated chain state through the calls. -/
def Chain.run (self : Chain) : Nat → Link × Chain
  | 0 => self.next_event
  | n + 1 => (self.next_event.2).run n

/-- One mutating operation on a fragment: `Fragment::append` with a fact,
or `Fragment::append_event` with an event. -/
inductive Op where
  | app (fact : List Nat)
  | appEvent (event : Event)

/-- Apply one operation to a fragment. -/
def applyOp (prim : List Nat → List Nat) (f : Fragment) : Op → Fragment
  | Op.app fact => f.append prim fact
  | Op.appEvent event => f.append_event prim event

/-- Apply a sequence of operations to a fragment, oldest first. -/
def applyOps (prim : List Nat → List Nat) (f : Fragment) (ops : List Op) :
    Fragment :=
  ops.foldl (applyOp prim) f

/-- The fragment invariants of the data model: every key of the event map
is the hash of the event it maps to, and the head, when present, has an
entry under its own hash. -/
def FragInv (prim : List Nat → List Nat) (f : Fragment) : Prop :=
  (∀ kv ∈ f.events, kv.1 = kv.2.hash prim) ∧
  (∀ e, f.head = some e → (mapGet f.events (e.hash prim)).isSome)

/-- The chain obtained by appending facts `A` then `B` to an empty fragment
and summarizing under `lbl`. -/
def twoAppendChain (prim : List Nat → List Nat) (A B : List Nat)
    (lbl : String) : Chain :=
  ((Fragment.new.append prim A).append prim B).summarize prim lbl

/-! Concrete stand-ins for the external blake2b primitive, used only to
instantiate the parametric theorems at concrete inputs. Both satisfy the
blake2b output-length contract (every output has length 64). -/

/-- A cheap primitive satisfying the 64-byte output-length contract: the
input length followed by 63 zero bytes. -/
def lenPrim (l : List Nat) : List Nat :=
  l.length :: List.replicate 63 0

/-- An injective code of byte lists into `Nat`, via the Cantor pairing
function. -/
def listCode : List Nat → Nat
  | [] => 0
  | x :: xs => Nat.pair x (listCode xs) + 1

/-- An injective primitive satisfying the 64-byte output-length contract:
the code of the input followed by 63 zero bytes. -/
def injPrim (l : List Nat) : List Nat :=
  listCode l :: List.replicate 63 0

theorem lenPrim_len : ∀ l, (lenPrim l).length = 64 := by
  intro l; simp [lenPrim]

theorem injPrim_len : ∀ l, (injPrim l).length = 64 := by
  intro l; simp [injPrim]

theorem listCode_injective : Function.Injective listCode := by
  intro l1
  induction l1 with
  | nil =>
    intro l2 h
    cases l2 with
    | nil => rfl
    | cons y ys => simp [listCode] at h
  | cons x xs ih =>
    intro l2 h
    cases l2 with
    | nil => simp [listCode] at h
    | cons y ys =>
      simp only [listCode, Nat.add_right_cancel_iff] at h
      obtain ⟨h1, h2⟩ := Nat.pair_eq_pair.mp h
      exact congrArg₂ List.cons h1 (ih h2)

theorem injPrim_injective : Function.Injective injPrim := by
  intro l1 l2 h
  simp only [injPrim, List.cons.injEq] at h
  exact listCode_injective h.1

/-! Helper lemmas about the embedding. -/

theorem copyInto_length : ∀ slice array : List Nat,
    (copyInto slice array).length = array.length := by
  intro slice
  induction slice with
  | nil => intro array; rfl
  | cons x xs ih =>
    intro array
    cases array with
    | nil => rfl
    | cons y ys => simp [copyInto, ih]

theorem copyInto_eq_of_length_eq : ∀ slice array : List Nat,
    slice.length = array.length → copyInto slice array = slice := by
  intro slice
  induction slice with
  | nil =>
    intro array h
    cases array with
    | nil => rfl
    | cons y ys => simp at h
  | cons x xs ih =>
    intro array h
    cases array with
    | nil => simp at h
    | cons y ys =>
      simp only [List.length_cons, Nat.add_right_cancel_iff] at h
      simp [copyInto, ih ys h]

theorem into_64bytes_of_length (slice : List Nat) (h : slice.length = 64) :
    into_64bytes slice = some slice := by
  simp only [into_64bytes, h]
  norm_num
  exact copyInto_eq_of_length_eq slice _ (by simp [h])

/-- Under the blake2b output-length contract, `Blake2.new` is just the
primitive output. -/
theorem Blake2.new_eq (prim : List Nat → List Nat)
    (hlen : ∀ l, (prim l).length = 64) (obj : List Nat) :
    Blake2.new prim obj = ⟨prim obj⟩ := by
  simp [Blake2.new, into_64bytes_of_length (prim obj) (hlen obj)]

/-- The bytes of any constructed digest have length 64, whatever the
primitive does. -/
theorem Blake2.new_bytes_length (prim : List Nat → List Nat) (obj : List Nat) :
    (Blake2.new prim obj).bytes.length = 64 := by
  unfold Blake2.new into_64bytes
  by_cases h : (prim obj).length = 64 <;>
    simp [h, copyInto_length]

theorem mem_removeKey : ∀ (m : List (Blake2 × Event)) (h : Blake2)
    (kv : Blake2 × Event), kv ∈ removeKey m h → kv ∈ m := by
  intro m h
  induction m with
  | nil => intro kv hm; simp [removeKey] at hm
  | cons p rest ih =>
    intro kv hm
    obtain ⟨k, v⟩ := p
    by_cases hk : k = h
    · simp only [removeKey, if_pos hk] at hm
      exact List.mem_cons_of_mem _ (ih kv hm)
    · simp only [removeKey, if_neg hk, List.mem_cons] at hm
      rcases hm with h1 | h2
      · exact h1 ▸ List.mem_cons_self _ _
      · exact List.mem_cons_of_mem _ (ih kv h2)

/-- The hash of any event is a 64-byte digest, whatever the primitive. -/
theorem Event.hash_bytes_length (prim : List Nat → List Nat) (e : Event) :
    (e.hash prim).bytes.length = 64 := by
  cases e <;> simp [Event.hash, Blake2.new_bytes_length]

/-- Inserting an event under its hash preserves both fragment invariants. -/
theorem append_event_inv (prim : List Nat → List Nat) (f : Fragment)
    (hf : FragInv prim f) (e : Event) :
    FragInv prim (f.append_event prim e) := by
  constructor
  · intro kv hkv
    simp only [Fragment.append_event, mapInsert, List.mem_cons] at hkv
    rcases hkv with h | h
    · rw [h]
    · exact hf.1 kv (mem_removeKey _ _ _ h)
  · intro ev hev
    simp only [Fragment.append_event, Option.some.injEq] at hev
    subst hev
    simp [Fragment.append_event, mapInsert, mapGet]

/-- C1: the digest of `make_event(f, None)` is `digest(f)`, and the digest
of `make_event(f, Some(p))` is the digest of the payload bytes followed by
the 64 raw bytes of the digest of `p`. -/
theorem make_event_digest (prim : List Nat → List Nat) (f : List Nat)
    (p : Event) :
    (Event.new prim f none).hash prim = Blake2.new prim f ∧
    (Event.new prim f (some p)).hash prim
      = Blake2.new prim (f ++ (p.hash prim).bytes) ∧
    (p.hash prim).bytes.length = 64 :=
  ⟨rfl, rfl, Event.hash_bytes_length prim p⟩

/-- C3: appending `f1` then `f2` to any fragment leaves the head equal to
the event built from `f2` chained onto the event built from `f1` (which is
itself chained onto the previous head, an Origin when the fragment was
empty), and both digests are present as keys of the event map. -/
theorem append_append_head (prim : List Nat → List Nat) (frag : Fragment)
    (f1 f2 : List Nat) :
    ((frag.append prim f1).append prim f2).head
      = some (Event.new prim f2 (some (Event.new prim f1 frag.head))) ∧
    (mapGet ((frag.append prim f1).append prim f2).events
      ((Event.new prim f1 frag.head).hash prim)).isSome ∧
    (mapGet ((frag.append prim f1).append prim f2).events
      ((Event.new prim f2 (some (Event.new prim f1 frag.head))).hash prim)).isSome := by
  refine ⟨rfl, ?_, ?_⟩
  · show (mapGet (mapInsert
      (mapInsert frag.events ((Event.new prim f1 frag.head).hash prim)
        (Event.new prim f1 frag.head))
      ((Event.new prim f2 (some (Event.new prim f1 frag.head))).hash prim)
      (Event.new prim f2 (some (Event.new prim f1 frag.head))))
      ((Event.new prim f1 frag.head).hash prim)).isSome
    by_cases hc : (Event.new prim f2 (some (Event.new prim f1 frag.head))).hash prim
        = (Event.new prim f1 frag.head).hash prim
    · simp [mapInsert, mapGet, hc]
    · simp [mapInsert, mapGet, removeKey, hc, Ne.symm hc]
  · simp [Fragment.append, Fragment.append_event, mapInsert, mapGet]

/-- C5: every fragment reachable from `Fragment::new` by appends satisfies
the invariants: every key of the event map is the digest of its event, and
the head, when present, has an entry under its digest. -/
theorem reachable_fragment_inv (prim : List Nat → List Nat) (ops : List Op) :
    FragInv prim (applyOps prim Fragment.new ops) := by
  have base : FragInv prim Fragment.new := by
    constructor
    · intro kv hkv
      simp [Fragment.new] at hkv
    · intro e he
      simp [Fragment.new] at he
  suffices h : ∀ f, FragInv prim f → FragInv prim (applyOps prim f ops) from
    h _ base
  induction ops with
  | nil => intro f hf; exact hf
  | cons op rest ih =>
    intro f hf
    have hstep : FragInv prim (applyOp prim f op) := by
      cases op with
      | app fact => exact append_event_inv prim f hf _
      | appEvent e => exact append_event_inv prim f hf e
    exact ih _ hstep

/-- C7: `summarize` returns a chain carrying the given label, a cursor at
the digest of the current head (exhausted when the head is absent), and the
unchanged fragment state. -/
theorem summarize_spec (prim : List Nat → List Nat) (f : Fragment)
    (lbl : String) :
    (f.summarize prim lbl).summary = lbl ∧
    (f.summarize prim lbl).fragment = f ∧
    (f.summarize prim lbl).next = f.head.map (fun e => e.hash prim) :=
  ⟨rfl, rfl, rfl⟩

/-- C8: `into_64bytes` fails exactly on inputs whose length is not 64, and
under the blake2b output-length contract the call made by `Blake2::new`
never fails. -/
theorem into_64bytes_fails_iff (prim : List Nat → List Nat)
    (hlen : ∀ l, (prim l).length = 64) (s obj : List Nat) :
    (into_64bytes s = none ↔ s.length ≠ 64) ∧
    into_64bytes (prim obj) = some (prim obj) := by
  constructor
  · constructor
    · intro h hl
      rw [into_64bytes_of_length s hl] at h
      exact Option.noConfusion h
    · intro h
      simp [into_64bytes, h]
  · exact into_64bytes_of_length (prim obj) (hlen obj)

theorem into_64bytes_fails_iff_witness :
    (∀ l, (lenPrim l).length = 64) ∧
    ((into_64bytes [] = none ↔ ([] : List Nat).length ≠ 64) ∧
      into_64bytes (lenPrim []) = some (lenPrim [])) :=
  ⟨lenPrim_len, into_64bytes_fails_iff lenPrim lenPrim_len [] []⟩

/-- C10: `next_event` never changes the fragment or the label of the chain,
and any call returning a Terminus of either variant leaves the whole chain
state unchanged. -/
theorem next_event_frame (c : Chain) :
    ((c.next_event.2).fragment = c.fragment ∧
      (c.next_event.2).summary = c.summary) ∧
    (∀ t, c.next_event.1 = Link.Terminus t → c.next_event.2 = c) := by
  cases hn : c.next with
  | none =>
    have he : c.next_event = (Link.Terminus none, c) := by
      simp [Chain.next_event, hn]
    rw [he]
    exact ⟨⟨rfl, rfl⟩, fun t _ => rfl⟩
  | some hsh =>
    cases hg : mapGet c.fragment.events hsh with
    | some ev =>
      have he : c.next_event = (Link.Event ev, { c with next := ev.parent }) := by
        simp [Chain.next_event, hn, hg]
      rw [he]
      refine ⟨⟨rfl, rfl⟩, fun t ht => ?_⟩
      simp at ht
    | none =>
      have he : c.next_event = (Link.Terminus (some hsh), c) := by
        simp [Chain.next_event, hn, hg]
      rw [he]
      exact ⟨⟨rfl, rfl⟩, fun t _ => rfl⟩

theorem next_event_frame_witness :
    (Chain.mk Fragment.new "s" none).next_event.2 = Chain.mk Fragment.new "s" none :=
  (next_event_frame (Chain.mk Fragment.new "s" none)).2 none rfl

/-- C4: a chain positioned at a digest absent from the event map returns
the boundary terminus carrying that digest, leaves its state unchanged, and
therefore every subsequent call returns the same boundary terminus. -/
theorem boundary_terminus (c : Chain) (d : Blake2) (hpos : c.next = some d)
    (hmiss : mapGet c.fragment.events d = none) :
    ∀ n, c.run n = (Link.Terminus (some d), c) := by
  have hstep : c.next_event = (Link.Terminus (some d), c) := by
    simp [Chain.next_event, hpos, hmiss]
  intro n
  induction n with
  | zero => exact hstep
  | succ k ih =>
    show (c.next_event.2).run k = _
    rw [hstep]
    exact ih

theorem boundary_terminus_witness :
    (Chain.mk Fragment.new "s" (some ⟨[0]⟩)).next = some ⟨[0]⟩ ∧
    mapGet (Chain.mk Fragment.new "s" (some ⟨[0]⟩)).fragment.events ⟨[0]⟩ = none ∧
    (Chain.mk Fragment.new "s" (some ⟨[0]⟩)).run 1
      = (Link.Terminus (some ⟨[0]⟩), Chain.mk Fragment.new "s" (some ⟨[0]⟩)) :=
  ⟨rfl, rfl, boundary_terminus (Chain.mk Fragment.new "s" (some ⟨[0]⟩)) ⟨[0]⟩ rfl rfl 1⟩

/-- C6: an exhausted chain answers every call with the origin terminus and
stays exhausted, and `summarize` on a fragment with no head produces a
chain that is exhausted from the start. -/
theorem exhausted_terminus (prim : List Nat → List Nat) (f : Fragment)
    (lbl : String) (hf : f.head = none) (c : Chain) (hc : c.next = none) :
    (f.summarize prim lbl).next = none ∧
    ∀ n, c.run n = (Link.Terminus none, c) := by
  constructor
  · simp [Fragment.summarize, Chain.new, hf]
  · have hstep : c.next_event = (Link.Terminus none, c) := by
      simp [Chain.next_event, hc]
    intro n
    induction n with
    | zero => exact hstep
    | succ k ih =>
      show (c.next_event.2).run k = _
      rw [hstep]
      exact ih

theorem exhausted_terminus_witness :
    Fragment.new.head = none ∧
    (Chain.mk Fragment.new "s" none).next = none ∧
    (Fragment.new.summarize lenPrim "t").next = none ∧
    (Chain.mk Fragment.new "s" none).run 1
      = (Link.Terminus none, Chain.mk Fragment.new "s" none) :=
  ⟨rfl, rfl,
    (exhausted_terminus lenPrim Fragment.new "t" rfl
      (Chain.mk Fragment.new "s" none) rfl).1,
    (exhausted_terminus lenPrim Fragment.new "t" rfl
      (Chain.mk Fragment.new "s" none) rfl).2 1⟩

/-- C9: for a collision-free primitive meeting the blake2b output-length
contract, distinct payloads under the same parent (or under no parent)
produce events with distinct digests. -/
theorem payload_sensitivity (prim : List Nat → List Nat)
    (hlen : ∀ l, (prim l).length = 64) (hinj : Function.Injective prim)
    (f1 f2 : List Nat) (hne : f1 ≠ f2) (p : Option Event) :
    (Event.new prim f1 p).hash prim ≠ (Event.new prim f2 p).hash prim := by
  cases p with
  | none =>
    intro h
    simp only [Event.new, Event.hash] at h
    rw [Blake2.new_eq prim hlen f1, Blake2.new_eq prim hlen f2] at h
    have h2 : prim f1 = prim f2 := congrArg Blake2.bytes h
    exact hne (hinj h2)
  | some q =>
    intro h
    simp only [Event.new, Event.hash] at h
    rw [Blake2.new_eq prim hlen _, Blake2.new_eq prim hlen _] at h
    have h2 : prim (f1 ++ (q.hash prim).bytes)
        = prim (f2 ++ (q.hash prim).bytes) := congrArg Blake2.bytes h
    exact hne (List.append_cancel_right (hinj h2))

theorem payload_sensitivity_witness :
    (∀ l, (injPrim l).length = 64) ∧ Function.Injective injPrim ∧
    ([0] : List Nat) ≠ [1] ∧
    (Event.new injPrim [0] none).hash injPrim
      ≠ (Event.new injPrim [1] none).hash injPrim :=
  ⟨injPrim_len, injPrim_injective, by decide,
    payload_sensitivity injPrim injPrim_len injPrim_injective [0] [1]
      (by decide) none⟩



/-- C2: appending facts `A` then `B` to an empty fragment and summarizing
yields, in order, the event built from `B` chained onto the event built
from `A`, then that origin event, then the origin terminus, and a fourth
call yields the origin terminus again — reverse-append order, assuming the
two events have distinct digests. -/
theorem two_append_trace (prim : List Nat → List Nat) (A B : List Nat)
    (lbl : String)
    (hne : (Event.new prim A none).hash prim
      ≠ (Event.new prim B (some (Event.new prim A none))).hash prim) :
    (twoAppendChain prim A B lbl).next_event.1
      = Link.Event (Event.new prim B (some (Event.new prim A none))) ∧
    ((twoAppendChain prim A B lbl).next_event.2).next_event.1
      = Link.Event (Event.new prim A none) ∧
    (((twoAppendChain prim A B lbl).next_event.2).next_event.2).next_event.1
      = Link.Terminus none ∧
    ((((twoAppendChain prim A B lbl).next_event.2).next_event.2).next_event.2).next_event.1
      = Link.Terminus none := by
  simp only [Event.new] at hne
  have hne2 := Ne.symm hne
  refine ⟨?_, ?_, ?_, ?_⟩ <;>
    simp [twoAppendChain, Fragment.summarize, Chain.new, Fragment.append,
      Fragment.append_event, Fragment.new, Event.new, Event.parent,
      Chain.next_event, mapInsert, mapGet, removeKey, hne, hne2]

theorem two_append_trace_witness :
    ((Event.new lenPrim [0] none).hash lenPrim
      ≠ (Event.new lenPrim [1] (some (Event.new lenPrim [0] none))).hash lenPrim) ∧
    (twoAppendChain lenPrim [0] [1] "s").next_event.1
      = Link.Event (Event.new lenPrim [1] (some (Event.new lenPrim [0] none))) :=
  ⟨by decide, (two_append_trace lenPrim [0] [1] "s" (by decide)).1⟩
